import Mathlib

/-!
Shallow embedding of the `dijkstra_graph_manipulation` repository
(`src/connection.py` and `src/graph.py`) and verification of the
specification's claims about it.

Python integers are modelled as `Int`.  The adjacency dictionary
`self._graph` (a Python `dict`) is modelled as an association list that
preserves key insertion order, exactly as CPython dicts do; lookups read
the first matching key, assignment replaces the value in place for an
existing key and appends a new key at the end, and `del` removes the key.
Raised exceptions are modelled with an explicit error type; operations
that raise after having already mutated `self` return the mutated state
together with the error, mirroring the visible state of the Python object
after the exception propagates.
-/

namespace DG

/-- Error outcomes of the Python code, one constructor per distinct raise
site kind: the spec's named validation errors, plus the runtime errors the
interpreter itself raises (`KeyError`, `IndexError`, `NameError`,
`NotImplementedError`). -/
inductive Err where
  | invalidEdgeArity
  | negativeDistance
  | nodeNotFound
  | invalidDegree
  | notImplementedError
  | keyError
  | indexError
  | nameError
deriving DecidableEq

/-- `connection.py`, class `Connection`: a destination node plus the
distance to it.  Python `==` on `Connection` compares `__dict__`, i.e. is
structural equality on the two fields, which is exactly `DecidableEq`
here. -/
structure Connection where
  node : Int
  distance : Int
deriving DecidableEq

/-- `Connection.hash_code` (`connection.py` lines 26-32): the body reads
the bare names `distance` and `node`, which are bound neither locally nor
at module level (the fields are `self._distance` / `self._node`), so the
first use raises `NameError` before any arithmetic happens. -/
def Connection.hash_code (_c : Connection) : Except Err Int :=
  .error .nameError

/-- The adjacency dictionary: key insertion-ordered association list from
node id to that node's edge sequence. -/
abbrev Adj := List (Int × List Connection)

/-- Python `d[k]` read (as `Option`): first entry with the key. -/
def dget? (a : Adj) (k : Int) : Option (List Connection) :=
  match a with
  | [] => none
  | (k2, v) :: rest => if k2 = k then some v else dget? rest k

/-- Python `d[k] = v`: replace the value of an existing key in place, or
append a fresh key at the end of the insertion order. -/
def dset (a : Adj) (k : Int) (v : List Connection) : Adj :=
  match a with
  | [] => [(k, v)]
  | (k2, v2) :: rest => if k2 = k then (k, v) :: rest else (k2, v2) :: dset rest k v

/-- Python `del d[k]`. -/
def ddel (a : Adj) (k : Int) : Adj :=
  a.filter (fun p => !(p.1 == k))

/-- The node's stored edge sequence, `[]` when the node is absent. -/
def aget (a : Adj) (k : Int) : List Connection :=
  (dget? a k).getD []

/-- `graph.py`, class `Graph`: the only state is `self._graph`. -/
structure Graph where
  adj : Adj
deriving DecidableEq

/-- The node's edge sequence in a graph, `[]` when the node is absent. -/
def adjOf (g : Graph) (u : Int) : List Connection :=
  aget g.adj u

/-- One directed half of `Graph.add_edge`: the
`if node not in self._graph: self._graph[node] = []` guard followed by
`self._graph[node].append(c)`. -/
def addHalf (a : Adj) (u : Int) (c : Connection) : Adj :=
  let a1 := match dget? a u with
    | none => dset a u []
    | some _ => a
  dset a1 u (aget a1 u ++ [c])

/-- `Graph.add_edge` (`graph.py` lines 42-68).  The negativity check is
the first statement, so a `NegativeDistance` failure leaves the state
untouched; the error therefore carries the unchanged graph. -/
def add_edge (g : Graph) (node1 node2 distance : Int) : Except (Err × Graph) Graph :=
  if distance < 0 then .error (.negativeDistance, g)
  else
    let a1 := addHalf g.adj node1 ⟨node2, distance⟩
    let a2 := addHalf a1 node2 ⟨node1, distance⟩
    .ok ⟨a2⟩

/-- Loop body of `Graph.__init__` (`graph.py` lines 33-38): each
connection record must be a 3-element list and is fed to `add_edge`. -/
def mkGraphAux (g : Graph) : List (List Int) → Except Err Graph
  | [] => .ok g
  | c :: rest =>
    match c with
    | [n1, n2, d] =>
      match add_edge g n1 n2 d with
      | .ok g2 => mkGraphAux g2 rest
      | .error (e, _) => .error e
    | _ => .error .invalidEdgeArity

/-- `Graph.__init__` with a connection list (`graph.py` lines 16-38). -/
def mkGraph (conns : List (List Int)) : Except Err Graph :=
  mkGraphAux ⟨[]⟩ conns

/-- `Graph.get_connections` (`graph.py` lines 71-84): the nested loop
appending `[node, edge.node, edge.distance]` records. -/
def get_connections (g : Graph) : List (List Int) :=
  g.adj.foldl (fun acc p => p.2.foldl (fun acc2 e => acc2 ++ [[p.1, e.node, e.distance]]) acc) []

/-- The Python pattern used in `contract_node_with_two_edges`
(`graph.py` lines 114-117):

`for inv_connection in lst: if inv_connection.node == X: lst.remove(inv_connection)`

CPython iterates by an internal index `k` over the list being mutated;
`list.remove` deletes the first element `==`-equal to its argument.  The
fuel argument bounds the number of loop iterations; since every
iteration increments `k` and never lengthens the list, `l.length` fuel
(from the initial call in `pySweep`) is always sufficient. -/
def pySweepAux (X : Int) : Nat → Nat → List Connection → List Connection
  | 0, _, l => l
  | fuel + 1, k, l =>
    if h : k < l.length then
      let c := l.get ⟨k, h⟩
      if c.node = X then pySweepAux X fuel (k + 1) (l.erase c)
      else pySweepAux X fuel (k + 1) l
    else l

/-- The whole remove-while-iterating loop, starting at index 0. -/
def pySweep (X : Int) (l : List Connection) : List Connection :=
  pySweepAux X l.length 0 l

/-- Outer loop of the back-edge removal in `contract_node_with_two_edges`
(`graph.py` lines 114-117): for each former connection of the contracted
node, fetch that neighbour's list (a missing key raises `KeyError`, with
the mutations so far left in place) and run the remove sweep on it. -/
def removeBackEdges (X : Int) : List Connection → Adj → Except (Err × Adj) Adj
  | [], a => .ok a
  | c :: rest, a =>
    match dget? a c.node with
    | none => .error (.keyError, a)
    | some l => removeBackEdges X rest (dset a c.node (pySweep X l))

/-- `Graph.contract_node_with_two_edges` (`graph.py` lines 86-120).  The
two precondition checks precede any mutation, so those failures carry the
unchanged graph; later failures (`KeyError` during back-edge removal, or
a failing final `add_edge`) carry the partially mutated state, as in
Python. -/
def contract_node_with_two_edges (g : Graph) (node : Int) : Except (Err × Graph) Graph :=
  match dget? g.adj node with
  | none => .error (.nodeNotFound, g)
  | some [c0, c1] =>
    let a1 := ddel g.adj node
    match removeBackEdges node [c0, c1] a1 with
    | .error (e, a2) => .error (e, ⟨a2⟩)
    | .ok a2 => add_edge ⟨a2⟩ c0.node c1.node (c0.distance + c1.distance)
  | some _ => .error (.invalidDegree, g)

/-- Entries of the distance array `D`: `float('inf')` is `none`, a finite
value `some d`. -/
abbrev EInt := Option Int

/-- `D[i] + w` with `inf + w = inf`. -/
def eadd (x : EInt) (w : Int) : EInt :=
  match x with
  | none => none
  | some a => some (a + w)

/-- Python `<` on distance values: `inf` is less than nothing, and every
finite value is less than `inf`. -/
def elt (x y : EInt) : Bool :=
  match x, y with
  | none, _ => false
  | some _, none => true
  | some a, some b => a < b

/-- Python list read `l[i]` with negative-index wrap-around;
out-of-range raises `IndexError`. -/
def pyGet (l : List EInt) (i : Int) : Except Err EInt :=
  let j := if i < 0 then i + l.length else i
  if 0 ≤ j then
    match l[j.toNat]? with
    | some x => .ok x
    | none => .error .indexError
  else .error .indexError

/-- Python list write `l[i] = x` with negative-index wrap-around. -/
def pySet (l : List EInt) (i : Int) (x : EInt) : Except Err (List EInt) :=
  let j := if i < 0 then i + l.length else i
  if 0 ≤ j ∧ j.toNat < l.length then .ok (l.set j.toNat x)
  else .error .indexError

/-- Inner loop of `dijkstra_version_1` (`graph.py` lines 156-158):
relax every connection of node `i`, reading `D[i]` and `D[connection.node]`
in the source's evaluation order. -/
def relaxAll (i : Int) : List Connection → List EInt → Except Err (List EInt)
  | [], D => .ok D
  | c :: rest, D => do
    let di ← pyGet D i
    let dj ← pyGet D c.node
    if elt (eadd di c.distance) dj then
      let D2 ← pySet D c.node (eadd di c.distance)
      relaxAll i rest D2
    else relaxAll i rest D

/-- `Graph.dijkstra_version_1` (`graph.py` lines 123-160): the membership
checks, the `D` array of length `len(self._graph)` initialised to
infinity except `D[node1] = 0`, then one relaxation sweep over
`i in range(len(self._graph))` (the `tight` array is written but never
read, so it is omitted), returning `D[node2]`. -/
def dijkstra_version_1 (g : Graph) (node1 node2 : Int) : Except Err EInt :=
  if (dget? g.adj node1).isNone then .error .nodeNotFound
  else if (dget? g.adj node2).isNone then .error .nodeNotFound
  else do
    let n := g.adj.length
    let D0 := List.replicate n (none : EInt)
    let D1 ← pySet D0 node1 (some 0)
    let DF ← (List.range n).foldlM (fun D i =>
      match dget? g.adj (Int.ofNat i) with
      | none => (.error .keyError : Except Err (List EInt))
      | some conns => relaxAll (Int.ofNat i) conns D) D1
    pyGet DF node2

/-- `Graph.dijkstra_version_2` (`graph.py` lines 163-207): the whole
algorithm is commented out in the source; the only executable statement
is `raise NotImplementedError(...)`, unconditionally, before any use of
the arguments. -/
def dijkstra_version_2 (_g : Graph) (_node1 _node2 : Int) : Except Err EInt :=
  .error .notImplementedError

/-- `Graph.dijkstra` (`graph.py` lines 209-210): dispatches to
`dijkstra_version_2`. -/
def dijkstra (g : Graph) (node1 node2 : Int) : Except Err EInt :=
  dijkstra_version_2 g node1 node2

/-! ### Concrete graphs used by the claims -/

/-- The edge list of the spec's concrete scenario (also the demo block of
`graph.py`). -/
def scenarioEdges : List (List Int) :=
  [[0, 1, 4], [0, 3, 2], [1, 2, 5], [1, 3, 1], [2, 3, 8], [2, 4, 1], [2, 5, 6], [3, 4, 9], [4, 5, 3]]

/-- The graph the constructor builds from `scenarioEdges`. -/
def gScen : Graph := ⟨[
  (0, [⟨1, 4⟩, ⟨3, 2⟩]),
  (1, [⟨0, 4⟩, ⟨2, 5⟩, ⟨3, 1⟩]),
  (3, [⟨0, 2⟩, ⟨1, 1⟩, ⟨2, 8⟩, ⟨4, 9⟩]),
  (2, [⟨1, 5⟩, ⟨3, 8⟩, ⟨4, 1⟩, ⟨5, 6⟩]),
  (4, [⟨2, 1⟩, ⟨3, 9⟩, ⟨5, 3⟩]),
  (5, [⟨2, 6⟩, ⟨4, 3⟩])]⟩

/-- The graph built by a single `add_edge(0, 1, 4)`. -/
def gSmall : Graph := ⟨[(0, [⟨1, 4⟩]), (1, [⟨0, 4⟩])]⟩

/-- The graph built by a single `add_edge(5, 3, 1)`. -/
def gFiveThree : Graph := ⟨[(5, [⟨3, 1⟩]), (3, [⟨5, 1⟩])]⟩

/-- The sparse graph built by a single `add_edge(0, 5, 1)`: two nodes but
identifiers 0 and 5, so `len(self._graph) = 2` while node 5 exists. -/
def gSparse : Graph := ⟨[(0, [⟨5, 1⟩]), (5, [⟨0, 1⟩])]⟩

/-! ### A structural view of the remove-while-iterating sweep

`sweepSpec X pre suf` describes the state of `pySweep`'s loop with the
already-scanned prefix `pre` (the first `k` elements of the current list)
and the not-yet-scanned suffix `suf`.  When the current element matches
and is removed, the element that shifts into the current index is skipped
(that is CPython's remove-while-iterating behaviour); when the removed
occurrence sits inside the scanned prefix (an earlier `==`-equal
element), the current element itself survives into the scanned region. -/

def sweepSpec (X : Int) : List Connection → List Connection → List Connection
  | pre, [] => pre
  | pre, [c] =>
    if c.node = X then (if c ∈ pre then pre.erase c ++ [c] else pre)
    else pre ++ [c]
  | pre, c :: r :: rest2 =>
    if c.node = X then
      (if c ∈ pre then sweepSpec X (pre.erase c ++ [c, r]) rest2
       else sweepSpec X (pre ++ [r]) rest2)
    else sweepSpec X (pre ++ [c]) (r :: rest2)

/-! ### Counting edges pointing at a node -/

/-- Number of entries of `l` whose destination is `X`. -/
def xcnt (X : Int) (l : List Connection) : Nat :=
  l.countP (fun c => c.node == X)

/-- The entries of `l` that do not point at `X`, in order. -/
def dropX (X : Int) (l : List Connection) : List Connection :=
  l.filter (fun c => !(c.node == X))

/-! ### Counting back-edges via their weights -/

/-- The weights of the entries of `l` that point at `X`, in order. -/
def xweights (X : Int) (l : List Connection) : List Int :=
  (l.filter (fun c => c.node == X)).map (fun c => c.distance)

/-! ### The undirected-pairing invariant -/

/-- Multiset form of the undirected-pairing invariant: every directed
half-edge `u -> v` with weight `w` is matched, with multiplicity, by a
half-edge `v -> u` with the same weight. -/
def symmCount (g : Graph) : Prop :=
  ∀ u v w : Int, (adjOf g u).count ⟨v, w⟩ = (adjOf g v).count ⟨u, w⟩

/-- Self-loop halves always come in pairs: `add_edge(u, u, w)` appends
two copies at once, and nothing ever removes a single one. -/
def evenLoops (g : Graph) : Prop :=
  ∀ u w : Int, (adjOf g u).count ⟨u, w⟩ % 2 = 0

/-- The full inductive invariant. -/
def Inv (g : Graph) : Prop := symmCount g ∧ evenLoops g

/-- Existence form of the pairing invariant (the spec's phrasing). -/
def Pairing (g : Graph) : Prop :=
  ∀ u v w : Int, (⟨v, w⟩ : Connection) ∈ adjOf g u → (⟨u, w⟩ : Connection) ∈ adjOf g v

/-- A three-node path graph used as the C6 witness: built from the edge
list `[[0,1,4],[1,2,5]]`, so node 1 has exactly the two edges 1-0 (4) and
1-2 (5). -/
def gPath : Graph := ⟨[
  (0, [⟨1, 4⟩]),
  (1, [⟨0, 4⟩, ⟨2, 5⟩]),
  (2, [⟨1, 5⟩])]⟩

/-! ### Contraction preserves the invariant -/

/-- The visible state of the graph object after a call, also when the
call raised: successful calls return the new state, failing calls leave
the state carried by the error. -/
def stateOf : Except (Err × Graph) Graph → Graph
  | .ok g => g
  | .error (_, g) => g

/-! ### Reachable graph states -/

/-- Graph states reachable through the public operations: the empty
constructor, construction from an edge list, `add_edge`, and
`contract_node_with_two_edges` — including the states left behind when
a contraction raises after mutating. -/
inductive Reachable : Graph → Prop where
  | empty : Reachable ⟨[]⟩
  | ctor {cs : List (List Int)} {g : Graph} : mkGraph cs = .ok g → Reachable g
  | add {g g2 : Graph} {n1 n2 d : Int} : Reachable g → add_edge g n1 n2 d = .ok g2 →
      Reachable g2
  | contractOk {g g2 : Graph} {n : Int} : Reachable g →
      contract_node_with_two_edges g n = .ok g2 → Reachable g2
  | contractErr {g g2 : Graph} {n : Int} {e : Err} : Reachable g →
      contract_node_with_two_edges g n = .error (e, g2) → Reachable g2

/-! ### Basic dictionary lemmas -/

theorem dget?_dset_self (a : Adj) (k : Int) (v : List Connection) :
    dget? (dset a k v) k = some v := by
  induction a with
  | nil => simp [dget?, dset]
  | cons p rest ih =>
    by_cases h : p.1 = k
    · simp [dset, dget?, h]
    · simp [dset, dget?, h, ih]

theorem dget?_dset_ne (a : Adj) {k k2 : Int} (v : List Connection) (h : k2 ≠ k) :
    dget? (dset a k v) k2 = dget? a k2 := by
  induction a with
  | nil => simp [dget?, dset, Ne.symm h]
  | cons p rest ih =>
    by_cases hp : p.1 = k
    · subst hp
      simp [dset, dget?, Ne.symm h]
    · simp only [dset, if_neg hp, dget?]
      by_cases hq : p.1 = k2 <;> simp [hq, ih]

theorem aget_dset_self (a : Adj) (k : Int) (v : List Connection) :
    aget (dset a k v) k = v := by
  simp [aget, dget?_dset_self]

theorem aget_dset_ne (a : Adj) {k k2 : Int} (v : List Connection) (h : k2 ≠ k) :
    aget (dset a k v) k2 = aget a k2 := by
  simp [aget, dget?_dset_ne a v h]

theorem aget_addHalf_self (a : Adj) (u : Int) (c : Connection) :
    aget (addHalf a u c) u = aget a u ++ [c] := by
  unfold addHalf
  cases h : dget? a u with
  | none => simp [aget, h, dget?_dset_self, aget_dset_self]
  | some l => simp [aget, h, dget?_dset_self]

theorem aget_addHalf_ne (a : Adj) {u v : Int} (c : Connection) (h : v ≠ u) :
    aget (addHalf a u c) v = aget a v := by
  unfold addHalf
  cases hh : dget? a u with
  | none => simp [aget_dset_ne _ _ h, aget, dget?_dset_ne _ _ h]
  | some l => simp [aget, dget?_dset_ne _ _ h]

/-! ### get_connections as a direct enumeration -/

theorem gc_inner (u : Int) (es : List Connection) (acc : List (List Int)) :
    es.foldl (fun acc2 e => acc2 ++ [[u, e.node, e.distance]]) acc
      = acc ++ es.map (fun e => [u, e.node, e.distance]) := by
  induction es generalizing acc with
  | nil => simp
  | cons e rest ih => simp [List.foldl_cons, ih]

theorem gc_outer (ps : Adj) (acc : List (List Int)) :
    ps.foldl (fun acc p => p.2.foldl (fun acc2 e => acc2 ++ [[p.1, e.node, e.distance]]) acc) acc
      = acc ++ ps.flatMap (fun p => p.2.map (fun e => [p.1, e.node, e.distance])) := by
  induction ps generalizing acc with
  | nil => simp
  | cons p rest ih =>
    rw [List.foldl_cons, ih, gc_inner]
    simp

theorem get_connections_eq (g : Graph) :
    get_connections g = g.adj.flatMap (fun p => p.2.map (fun e => [p.1, e.node, e.distance])) := by
  simpa [get_connections] using gc_outer g.adj []

theorem pySweepAux_of_le (X : Int) (fuel k : Nat) (l : List Connection)
    (h : l.length ≤ k) : pySweepAux X fuel k l = l := by
  cases fuel with
  | zero => rfl
  | succ f => simp [pySweepAux, Nat.not_lt.mpr h]

theorem pySweepAux_step (X : Int) (f k : Nat) (l : List Connection) (h : k < l.length) :
    pySweepAux X (f + 1) k l =
      (if (l.get ⟨k, h⟩).node = X then pySweepAux X f (k + 1) (l.erase (l.get ⟨k, h⟩))
       else pySweepAux X f (k + 1) l) := by
  simp only [pySweepAux, dif_pos h]

theorem get_append_self_length (pre : List Connection) (c : Connection)
    (rest : List Connection) (h : pre.length < (pre ++ c :: rest).length) :
    (pre ++ c :: rest).get ⟨pre.length, h⟩ = c := by
  induction pre with
  | nil => rfl
  | cons p ps ih => simpa using ih (by simpa using Nat.lt_of_succ_lt_succ (by simpa using h))

theorem pySweepAux_eq_sweepSpec (X : Int) :
    ∀ (N : Nat) (suf : List Connection), suf.length ≤ N →
    ∀ (pre : List Connection) (fuel : Nat), suf.length ≤ fuel →
      pySweepAux X fuel pre.length (pre ++ suf) = sweepSpec X pre suf := by
  intro N
  induction N with
  | zero =>
    intro suf hs pre fuel _
    have hnil : suf = [] := List.eq_nil_of_length_eq_zero (Nat.le_zero.mp hs)
    subst hnil
    rw [List.append_nil]
    exact pySweepAux_of_le X fuel pre.length pre (Nat.le_refl _)
  | succ N ih =>
    intro suf hs pre fuel hf
    cases suf with
    | nil =>
      rw [List.append_nil]
      exact pySweepAux_of_le X fuel pre.length pre (Nat.le_refl _)
    | cons c rest =>
      cases fuel with
      | zero => simp at hf
      | succ f =>
        have hk : pre.length < (pre ++ c :: rest).length := by simp
        rw [pySweepAux_step X f pre.length _ hk, get_append_self_length pre c rest hk]
        by_cases hcx : c.node = X
        · rw [if_pos hcx]
          by_cases hmem : c ∈ pre
          · have herase : (pre ++ c :: rest).erase c = pre.erase c ++ c :: rest :=
              List.erase_append_left _ hmem
            have hlen : (pre.erase c).length = pre.length - 1 :=
              List.length_erase_of_mem hmem
            have hpos : 0 < pre.length := List.length_pos.mpr (List.ne_nil_of_mem hmem)
            cases rest with
            | nil =>
              rw [herase,
                pySweepAux_of_le X f (pre.length + 1) (pre.erase c ++ [c])
                  (by simp only [List.length_append, List.length_singleton, hlen]; omega)]
              simp only [sweepSpec]
              rw [if_pos hcx, if_pos hmem]
            | cons r rest2 =>
              rw [herase]
              have hview : pre.erase c ++ c :: r :: rest2
                  = (pre.erase c ++ [c, r]) ++ rest2 := by simp
              have hklen : pre.length + 1 = (pre.erase c ++ [c, r]).length := by
                simp [hlen]; omega
              rw [hview, hklen,
                ih rest2 (by simp at hs; omega) _ f (by simp at hf; omega)]
              simp only [sweepSpec]
              rw [if_pos hcx, if_pos hmem]
          · have herase : (pre ++ c :: rest).erase c = pre ++ rest := by
              rw [List.erase_append_right _ hmem, List.erase_cons_head]
            cases rest with
            | nil =>
              rw [herase, List.append_nil,
                pySweepAux_of_le X f (pre.length + 1) pre (by simp)]
              simp only [sweepSpec]
              rw [if_pos hcx, if_neg hmem]
            | cons r rest2 =>
              rw [herase]
              have hview : pre ++ r :: rest2 = (pre ++ [r]) ++ rest2 := by simp
              have hklen : pre.length + 1 = (pre ++ [r]).length := by simp
              rw [hview, hklen,
                ih rest2 (by simp at hs; omega) _ f (by simp at hf; omega)]
              simp only [sweepSpec]
              rw [if_pos hcx, if_neg hmem]
        · rw [if_neg hcx]
          cases rest with
          | nil =>
            rw [pySweepAux_of_le X f (pre.length + 1) (pre ++ [c]) (by simp)]
            simp only [sweepSpec]
            rw [if_neg hcx]
          | cons r rest2 =>
            have hview : pre ++ c :: r :: rest2 = (pre ++ [c]) ++ (r :: rest2) := by simp
            have hklen : pre.length + 1 = (pre ++ [c]).length := by simp
            rw [hview, hklen,
              ih (r :: rest2) (by simp at hs ⊢; omega) _ f (by simp at hf ⊢; omega)]
            simp only [sweepSpec]
            rw [if_neg hcx]

theorem pySweep_eq_sweepSpec (X : Int) (l : List Connection) :
    pySweep X l = sweepSpec X [] l := by
  simpa [pySweep] using
    pySweepAux_eq_sweepSpec X l.length l (Nat.le_refl _) [] l.length (Nat.le_refl _)

theorem xcnt_nil (X : Int) : xcnt X [] = 0 := rfl

theorem xcnt_append (X : Int) (l1 l2 : List Connection) :
    xcnt X (l1 ++ l2) = xcnt X l1 + xcnt X l2 := by
  simp [xcnt, List.countP_append]

theorem xcnt_cons_of_eq (X : Int) {c : Connection} (l : List Connection)
    (h : c.node = X) : xcnt X (c :: l) = xcnt X l + 1 := by
  simp [xcnt, List.countP_cons, h]

theorem xcnt_cons_of_ne (X : Int) {c : Connection} (l : List Connection)
    (h : ¬ c.node = X) : xcnt X (c :: l) = xcnt X l := by
  simp [xcnt, List.countP_cons, h]

theorem xcnt_eq_zero {X : Int} {l : List Connection} :
    xcnt X l = 0 ↔ ∀ c ∈ l, ¬ c.node = X := by
  simp [xcnt, List.countP_eq_zero]

theorem xcnt_pos_of_mem {X : Int} {c : Connection} {l : List Connection}
    (hm : c ∈ l) (hx : c.node = X) : 0 < xcnt X l := by
  simp only [xcnt]
  exact List.countP_pos_iff.mpr ⟨c, hm, by simp [hx]⟩

theorem dropX_eq_self {X : Int} {l : List Connection} (h : xcnt X l = 0) :
    dropX X l = l := by
  rw [dropX, List.filter_eq_self]
  intro c hc
  simp [xcnt_eq_zero.mp h c hc]

theorem xcnt_dropX (X : Int) (l : List Connection) : xcnt X (dropX X l) = 0 := by
  rw [xcnt_eq_zero]
  intro c hc
  have := List.of_mem_filter hc
  simpa using this

theorem count_dropX {X : Int} {c : Connection} (l : List Connection)
    (h : ¬ c.node = X) : (dropX X l).count c = l.count c := by
  apply List.count_filter
  simp [h]

/-! ### Behaviour of the sweep, for lists with at most two matches -/

theorem sweepSpec_clean (X : Int) (suf : List Connection) :
    ∀ pre, xcnt X suf = 0 → sweepSpec X pre suf = pre ++ suf := by
  induction suf with
  | nil => intro pre _; simp [sweepSpec]
  | cons c rest ih =>
    intro pre h
    have hcx : ¬ c.node = X := by
      intro hx
      rw [xcnt_cons_of_eq X rest hx] at h
      omega
    have hr : xcnt X rest = 0 := by rwa [xcnt_cons_of_ne X rest hcx] at h
    cases rest with
    | nil => simp [sweepSpec, hcx]
    | cons r rest2 =>
      simp only [sweepSpec]
      rw [if_neg hcx, ih (pre ++ [c]) hr]
      simp

theorem sweepSpec_one (X : Int) (suf : List Connection) :
    ∀ pre, xcnt X pre = 0 → xcnt X suf = 1 →
      sweepSpec X pre suf = pre ++ dropX X suf := by
  induction suf with
  | nil =>
    intro pre _ h
    simp [xcnt_nil] at h
  | cons c rest ih =>
    intro pre hp h
    by_cases hcx : c.node = X
    · have hrest : xcnt X rest = 0 := by
        rw [xcnt_cons_of_eq X rest hcx] at h
        omega
      have hmem : c ∉ pre := fun hm => by
        have := xcnt_pos_of_mem hm hcx
        omega
      cases rest with
      | nil =>
        simp only [sweepSpec]
        rw [if_pos hcx, if_neg hmem]
        simp [dropX, hcx]
      | cons r rest2 =>
        have hrx : ¬ r.node = X := by
          intro hx
          rw [xcnt_cons_of_eq X rest2 hx] at hrest
          omega
        have hrest2 : xcnt X rest2 = 0 := by rwa [xcnt_cons_of_ne X rest2 hrx] at hrest
        simp only [sweepSpec]
        rw [if_pos hcx, if_neg hmem, sweepSpec_clean X rest2 _ hrest2]
        have : dropX X (c :: r :: rest2) = r :: rest2 := by
          have h2 : dropX X (r :: rest2) = r :: rest2 :=
            dropX_eq_self (by rw [xcnt_cons_of_ne X rest2 hrx]; exact hrest2)
          simp only [dropX, List.filter_cons] at h2 ⊢
          simp [hcx, hrx] at h2 ⊢
          exact h2
        rw [this]
        simp
    · have hrest : xcnt X rest = 1 := by rwa [xcnt_cons_of_ne X rest hcx] at h
      have hpc : xcnt X (pre ++ [c]) = 0 := by
        rw [xcnt_append, hp, xcnt_cons_of_ne X [] hcx, xcnt_nil]
      cases rest with
      | nil => simp [xcnt_nil] at hrest
      | cons r rest2 =>
        simp only [sweepSpec]
        rw [if_neg hcx, ih (pre ++ [c]) hpc hrest]
        have : dropX X (c :: r :: rest2) = c :: dropX X (r :: rest2) := by
          simp [dropX, List.filter_cons, hcx]
        rw [this]
        simp

theorem sweepSpec_two (X : Int) (suf : List Connection) :
    ∀ pre, xcnt X pre = 0 → xcnt X suf = 2 →
      (∀ e : Connection, ¬ e.node = X →
        (sweepSpec X pre suf).count e = pre.count e + suf.count e) ∧
      xcnt X (sweepSpec X pre suf) ≤ 1 := by
  induction suf with
  | nil =>
    intro pre _ h
    simp [xcnt_nil] at h
  | cons c rest ih =>
    intro pre hp h
    by_cases hcx : c.node = X
    · have hrest : xcnt X rest = 1 := by
        rw [xcnt_cons_of_eq X rest hcx] at h
        omega
      have hmem : c ∉ pre := fun hm => by
        have := xcnt_pos_of_mem hm hcx
        omega
      cases rest with
      | nil => simp [xcnt_nil] at hrest
      | cons r rest2 =>
        simp only [sweepSpec]
        rw [if_pos hcx, if_neg hmem]
        by_cases hrx : r.node = X
        · have hrest2 : xcnt X rest2 = 0 := by
            rw [xcnt_cons_of_eq X rest2 hrx] at hrest
            omega
          rw [sweepSpec_clean X rest2 _ hrest2]
          constructor
          · intro e he
            have hec : e ≠ c := by
              intro hh
              subst hh
              exact he hcx
            have her : e ≠ r := by
              intro hh
              subst hh
              exact he hrx
            simp [List.count_append, List.count_cons, hec, her]
          · rw [xcnt_append, xcnt_append, hp, hrest2, xcnt_cons_of_eq X [] hrx, xcnt_nil]
        · have hrest2 : xcnt X rest2 = 1 := by rwa [xcnt_cons_of_ne X rest2 hrx] at hrest
          have hpr : xcnt X (pre ++ [r]) = 0 := by
            rw [xcnt_append, hp, xcnt_cons_of_ne X [] hrx, xcnt_nil]
          rw [sweepSpec_one X rest2 _ hpr hrest2]
          constructor
          · intro e he
            have hec : e ≠ c := by
              intro hh
              subst hh
              exact he hcx
            rw [List.count_append, List.count_append, count_dropX rest2 he]
            simp [List.count_cons, hec]
            omega
          · rw [xcnt_append, xcnt_append, hp, xcnt_cons_of_ne X [] hrx, xcnt_nil,
              xcnt_dropX]
            omega
    · have hrest : xcnt X rest = 2 := by rwa [xcnt_cons_of_ne X rest hcx] at h
      have hpc : xcnt X (pre ++ [c]) = 0 := by
        rw [xcnt_append, hp, xcnt_cons_of_ne X [] hcx, xcnt_nil]
      cases rest with
      | nil => simp [xcnt_nil] at hrest
      | cons r rest2 =>
        simp only [sweepSpec]
        rw [if_neg hcx]
        obtain ⟨h1, h2⟩ := ih (pre ++ [c]) hpc hrest
        constructor
        · intro e he
          rw [h1 e he, List.count_append]
          simp [List.count_cons]
          omega
        · exact h2

theorem sweepSpec_le_one (X : Int) (l : List Connection) (h : xcnt X l ≤ 1) :
    sweepSpec X [] l = dropX X l := by
  rcases Nat.lt_or_ge (xcnt X l) 1 with h0 | h1
  · have h0 : xcnt X l = 0 := by omega
    rw [sweepSpec_clean X l [] h0, dropX_eq_self h0]
    simp
  · have h1 : xcnt X l = 1 := by omega
    simpa using sweepSpec_one X l [] (xcnt_nil X) h1

theorem dropX_eq_erase {X : Int} {e : Connection} :
    ∀ {l : List Connection}, e ∈ l → e.node = X → xcnt X l = 1 →
      dropX X l = l.erase e := by
  intro l
  induction l with
  | nil => intro hm _ _; cases hm
  | cons c rest ih =>
    intro hm hx h1
    by_cases hce : c = e
    · subst hce
      have hrest : xcnt X rest = 0 := by
        rw [xcnt_cons_of_eq X rest hx] at h1
        omega
      rw [List.erase_cons_head]
      have hd : dropX X (c :: rest) = dropX X rest := by simp [dropX, hx]
      rw [hd, dropX_eq_self hrest]
    · have hm2 : e ∈ rest := by
        cases hm with
        | head => exact absurd rfl hce
        | tail _ hh => exact hh
      have hcx : ¬ c.node = X := by
        intro hcx
        have h2 := xcnt_pos_of_mem hm2 hx
        rw [xcnt_cons_of_eq X rest hcx] at h1
        omega
      rw [List.erase_cons_tail (by simpa using hce)]
      have hd : dropX X (c :: rest) = c :: dropX X rest := by simp [dropX, hcx]
      rw [hd, ih hm2 hx (by rwa [xcnt_cons_of_ne X rest hcx] at h1)]

/-! ### More dictionary lemmas -/

theorem dget?_ddel_self (a : Adj) (k : Int) : dget? (ddel a k) k = none := by
  induction a with
  | nil => rfl
  | cons p rest ih =>
    by_cases h : p.1 = k
    · simpa [ddel, List.filter_cons, h] using ih
    · simpa [ddel, List.filter_cons, h, dget?] using ih

theorem dget?_ddel_ne (a : Adj) {k k2 : Int} (h : k2 ≠ k) :
    dget? (ddel a k) k2 = dget? a k2 := by
  induction a with
  | nil => rfl
  | cons p rest ih =>
    by_cases hp : p.1 = k
    · have hne : ¬ p.1 = k2 := by
        rw [hp]
        exact Ne.symm h
      have h1 : ddel (p :: rest) k = ddel rest k := by simp [ddel, List.filter_cons, hp]
      have h2 : dget? (p :: rest) k2 = dget? rest k2 := by simp [dget?, hne]
      rw [h1, h2, ih]
    · have h1 : ddel (p :: rest) k = p :: ddel rest k := by simp [ddel, List.filter_cons, hp]
      rw [h1]
      by_cases hq : p.1 = k2
      · simp [dget?, hq]
      · simp [dget?, hq, ih]

theorem aget_ddel_self (a : Adj) (k : Int) : aget (ddel a k) k = [] := by
  simp [aget, dget?_ddel_self]

theorem aget_ddel_ne (a : Adj) {k k2 : Int} (h : k2 ≠ k) :
    aget (ddel a k) k2 = aget a k2 := by
  simp [aget, dget?_ddel_ne a h]

theorem dget?_addHalf_self (a : Adj) (u : Int) (c : Connection) :
    dget? (addHalf a u c) u = some (aget a u ++ [c]) := by
  unfold addHalf
  cases h : dget? a u with
  | none => simp [aget, h, dget?_dset_self]
  | some l => simp [aget, h, dget?_dset_self]

theorem dget?_addHalf_ne (a : Adj) {u v : Int} (c : Connection) (h : v ≠ u) :
    dget? (addHalf a u c) v = dget? a v := by
  unfold addHalf
  cases hh : dget? a u with
  | none => simp [dget?_dset_ne _ _ h]
  | some l => simp [dget?_dset_ne _ _ h]

theorem dget?_eq_some_aget {a : Adj} {k : Int} (h : aget a k ≠ []) :
    dget? a k = some (aget a k) := by
  cases hh : dget? a k with
  | none => exact absurd (by simp [aget, hh]) h
  | some l => simp [aget, hh]

theorem count_xweights (X w : Int) (l : List Connection) :
    (xweights X l).count w = l.count ⟨X, w⟩ := by
  induction l with
  | nil => rfl
  | cons c rest ih =>
    by_cases h : c.node = X
    · have hx : xweights X (c :: rest) = c.distance :: xweights X rest := by
        simp [xweights, h]
      have hb : (c == (⟨X, w⟩ : Connection)) = (c.distance == w) := by
        cases c with
        | mk cn cd =>
          simp only [Connection.mk.injEq] at h ⊢
          simp [h, Connection.mk.injEq]
      rw [hx, List.count_cons, List.count_cons, ih, hb]
    · have hx : xweights X (c :: rest) = xweights X rest := by
        simp [xweights, h]
      have hb : (c == (⟨X, w⟩ : Connection)) = false := by
        cases c with
        | mk cn cd => simp_all [Connection.mk.injEq]
      rw [hx, ih, List.count_cons, hb]
      simp

theorem xcnt_eq_length_xweights (X : Int) (l : List Connection) :
    xcnt X l = (xweights X l).length := by
  simp [xcnt, xweights, List.length_map, List.countP_eq_length_filter]

theorem xcnt_of_counts {X : Int} {l : List Connection} (L : List Int)
    (h : ∀ w, l.count ⟨X, w⟩ = L.count w) : xcnt X l = L.length := by
  have hperm : (xweights X l).Perm L :=
    List.perm_iff_count.mpr (fun w => by rw [count_xweights, h w])
  rw [xcnt_eq_length_xweights, hperm.length_eq]

theorem count_le_xcnt (X w : Int) (l : List Connection) :
    l.count ⟨X, w⟩ ≤ xcnt X l := by
  rw [List.count, xcnt]
  apply List.countP_mono_left
  intro e _ he
  have : e = ⟨X, w⟩ := by simpa using he
  simp [this]

theorem pairing_of_symmCount {g : Graph} (h : symmCount g) : Pairing g := by
  intro u v w hm
  have h1 : 0 < (adjOf g u).count ⟨v, w⟩ := List.count_pos_iff.mpr hm
  rw [h u v w] at h1
  exact List.count_pos_iff.mp h1

theorem inv_empty : Inv ⟨[]⟩ :=
  ⟨fun _ _ _ => rfl, fun _ _ => rfl⟩

/-! ### add_edge preserves the invariant -/

theorem aget_add2 (a : Adj) (n1 n2 d : Int) (u : Int) :
    aget (addHalf (addHalf a n1 ⟨n2, d⟩) n2 ⟨n1, d⟩) u
      = aget a u ++
        ((if u = n1 then [(⟨n2, d⟩ : Connection)] else [])
          ++ (if u = n2 then [(⟨n1, d⟩ : Connection)] else [])) := by
  by_cases h2 : u = n2
  · subst h2
    rw [aget_addHalf_self, if_pos rfl]
    by_cases h1 : u = n1
    · subst h1
      rw [aget_addHalf_self, if_pos rfl]
      simp
    · rw [aget_addHalf_ne _ _ h1, if_neg h1]
      simp
  · rw [aget_addHalf_ne _ _ h2, if_neg h2]
    by_cases h1 : u = n1
    · subst h1
      rw [aget_addHalf_self, if_pos rfl]
      simp
    · rw [aget_addHalf_ne _ _ h1, if_neg h1]
      simp

theorem count_one (x y : Connection) : List.count y [x] = if x = y then 1 else 0 := by
  by_cases h : x = y <;> simp [List.count_singleton, h]

theorem count_iflist (P : Prop) [Decidable P] (x y : Connection) :
    List.count y (if P then [x] else []) = if P ∧ x = y then 1 else 0 := by
  by_cases hP : P
  · by_cases hxy : x = y <;> simp [hP, hxy, count_one]
  · simp [hP]

theorem pair_cond_swap {u v n m d w : Int} :
    (u = n ∧ (⟨m, d⟩ : Connection) = ⟨v, w⟩) ↔ (v = m ∧ (⟨n, d⟩ : Connection) = ⟨u, w⟩) := by
  constructor
  · rintro ⟨h1, h2⟩
    injection h2 with h3 h4
    exact ⟨h3.symm, by rw [h1, h4]⟩
  · rintro ⟨h1, h2⟩
    injection h2 with h3 h4
    exact ⟨h3.symm, by rw [h1, h4]⟩

theorem add_edge_ok_adj {g g2 : Graph} {n1 n2 d : Int}
    (h : add_edge g n1 n2 d = .ok g2) :
    ¬ d < 0 ∧ g2.adj = addHalf (addHalf g.adj n1 ⟨n2, d⟩) n2 ⟨n1, d⟩ := by
  by_cases hd : d < 0
  · simp [add_edge, hd] at h
  · refine ⟨hd, ?_⟩
    simp only [add_edge, if_neg hd] at h
    injection h with h2
    rw [← h2]

theorem adjOf_add_edge {g g2 : Graph} {n1 n2 d : Int}
    (h : add_edge g n1 n2 d = .ok g2) (u : Int) :
    adjOf g2 u = adjOf g u ++
      ((if u = n1 then [(⟨n2, d⟩ : Connection)] else [])
        ++ (if u = n2 then [(⟨n1, d⟩ : Connection)] else [])) := by
  obtain ⟨-, hadj⟩ := add_edge_ok_adj h
  simp only [adjOf, hadj, aget_add2]

theorem count_extra (u v w n1 n2 d : Int) :
    List.count (⟨v, w⟩ : Connection)
        ((if u = n1 then [(⟨n2, d⟩ : Connection)] else [])
          ++ (if u = n2 then [(⟨n1, d⟩ : Connection)] else []))
      = List.count (⟨u, w⟩ : Connection)
        ((if v = n1 then [(⟨n2, d⟩ : Connection)] else [])
          ++ (if v = n2 then [(⟨n1, d⟩ : Connection)] else [])) := by
  rw [List.count_append, List.count_append, count_iflist, count_iflist,
    count_iflist, count_iflist]
  have t1 : (if u = n1 ∧ (⟨n2, d⟩ : Connection) = ⟨v, w⟩ then 1 else 0)
      = (if v = n2 ∧ (⟨n1, d⟩ : Connection) = ⟨u, w⟩ then 1 else 0) :=
    if_congr pair_cond_swap rfl rfl
  have t2 : (if u = n2 ∧ (⟨n1, d⟩ : Connection) = ⟨v, w⟩ then 1 else 0)
      = (if v = n1 ∧ (⟨n2, d⟩ : Connection) = ⟨u, w⟩ then 1 else 0) :=
    if_congr pair_cond_swap rfl rfl
  rw [t1, t2, Nat.add_comm]

theorem symm_add_edge {g g2 : Graph} {n1 n2 d : Int} (hs : symmCount g)
    (h : add_edge g n1 n2 d = .ok g2) : symmCount g2 := by
  intro u v w
  rw [adjOf_add_edge h u, adjOf_add_edge h v]
  simp only [List.count_append]
  have t1 : List.count (⟨v, w⟩ : Connection) (if u = n1 then [(⟨n2, d⟩ : Connection)] else [])
      = List.count (⟨u, w⟩ : Connection) (if v = n2 then [(⟨n1, d⟩ : Connection)] else []) := by
    rw [count_iflist, count_iflist]
    exact if_congr pair_cond_swap rfl rfl
  have t2 : List.count (⟨v, w⟩ : Connection) (if u = n2 then [(⟨n1, d⟩ : Connection)] else [])
      = List.count (⟨u, w⟩ : Connection) (if v = n1 then [(⟨n2, d⟩ : Connection)] else []) := by
    rw [count_iflist, count_iflist]
    exact if_congr pair_cond_swap rfl rfl
  rw [hs u v w, t1, t2]
  ring

theorem even_add_edge {g g2 : Graph} {n1 n2 d : Int} (he : evenLoops g)
    (h : add_edge g n1 n2 d = .ok g2) : evenLoops g2 := by
  intro u w
  rw [adjOf_add_edge h u, List.count_append]
  have hx : List.count (⟨u, w⟩ : Connection)
      ((if u = n1 then [(⟨n2, d⟩ : Connection)] else [])
        ++ (if u = n2 then [(⟨n1, d⟩ : Connection)] else [])) % 2 = 0 := by
    rw [List.count_append, count_iflist, count_iflist]
    have t1 : (if u = n1 ∧ (⟨n2, d⟩ : Connection) = ⟨u, w⟩ then 1 else 0)
        = (if u = n2 ∧ (⟨n1, d⟩ : Connection) = ⟨u, w⟩ then 1 else 0) :=
      if_congr pair_cond_swap rfl rfl
    rw [t1]
    by_cases hc : u = n2 ∧ (⟨n1, d⟩ : Connection) = ⟨u, w⟩
    · rw [if_pos hc]
    · rw [if_neg hc]
  have h1 := he u w
  omega

theorem inv_add_edge {g g2 : Graph} {n1 n2 d : Int} (h : Inv g)
    (hok : add_edge g n1 n2 d = .ok g2) : Inv g2 :=
  ⟨symm_add_edge h.1 hok, even_add_edge h.2 hok⟩

theorem inv_mkGraphAux :
    ∀ (cs : List (List Int)) (g g2 : Graph), Inv g → mkGraphAux g cs = .ok g2 → Inv g2 := by
  intro cs
  induction cs with
  | nil =>
    intro g g2 h hok
    simp only [mkGraphAux] at hok
    injection hok with h2
    rwa [h2] at h
  | cons c rest ih =>
    intro g g2 h hok
    rcases c with - | ⟨n1, c⟩
    · simp only [mkGraphAux] at hok
      exact Except.noConfusion hok
    rcases c with - | ⟨n2, c⟩
    · simp only [mkGraphAux] at hok
      exact Except.noConfusion hok
    rcases c with - | ⟨d, c⟩
    · simp only [mkGraphAux] at hok
      exact Except.noConfusion hok
    rcases c with - | ⟨x, c⟩
    · simp only [mkGraphAux] at hok
      cases hae : add_edge g n1 n2 d with
      | ok gm =>
        rw [hae] at hok
        exact ih gm g2 (inv_add_edge h hae) hok
      | error p =>
        rw [hae] at hok
        exact Except.noConfusion hok
    · simp only [mkGraphAux] at hok
      exact Except.noConfusion hok

theorem inv_mkGraph {cs : List (List Int)} {g : Graph} (h : mkGraph cs = .ok g) : Inv g :=
  inv_mkGraphAux cs ⟨[]⟩ g inv_empty h

/-! ### Contraction on a node with two edges to distinct neighbours -/

theorem backedge_side {g : Graph} {X N n M m : Int}
    (hs : symmCount g) (hX : adjOf g X = [⟨N, n⟩, ⟨M, m⟩]) (hnm : N ≠ M) :
    (∀ w, (adjOf g N).count ⟨X, w⟩ = if w = n then 1 else 0) ∧
    xcnt X (adjOf g N) = 1 ∧ (⟨X, n⟩ : Connection) ∈ adjOf g N := by
  have hcnt : ∀ w, (adjOf g N).count ⟨X, w⟩ = if w = n then 1 else 0 := by
    intro w
    rw [hs N X w, hX]
    by_cases hw : w = n
    · subst hw
      have hMN : ¬ ((⟨M, m⟩ : Connection) == ⟨N, w⟩) = true := by
        simp [Connection.mk.injEq]
        intro h
        exact absurd h.symm hnm
      simp [List.count_cons, hMN]
    · have hwn : ¬ ((⟨N, n⟩ : Connection) == ⟨N, w⟩) = true := by
        simp [Connection.mk.injEq]
        exact fun h => hw h.symm
      have hMN : ¬ ((⟨M, m⟩ : Connection) == ⟨N, w⟩) = true := by
        simp [Connection.mk.injEq]
        intro h
        exact absurd h.symm hnm
      simp [List.count_cons, hwn, hMN, hw]
  refine ⟨hcnt, ?_, ?_⟩
  · apply xcnt_of_counts [n]
    intro w
    rw [hcnt w]
    by_cases hw : w = n
    · subst hw
      simp
    · simp [List.count_singleton, hw, fun h => hw (Eq.symm h)]
  · apply List.count_pos_iff.mp
    rw [hcnt n]
    simp

theorem backedge_side_snd {g : Graph} {X N n M m : Int}
    (hs : symmCount g) (hX : adjOf g X = [⟨N, n⟩, ⟨M, m⟩]) (hnm : N ≠ M) :
    (∀ w, (adjOf g M).count ⟨X, w⟩ = if w = m then 1 else 0) ∧
    xcnt X (adjOf g M) = 1 ∧ (⟨X, m⟩ : Connection) ∈ adjOf g M := by
  have hcnt : ∀ w, (adjOf g M).count ⟨X, w⟩ = if w = m then 1 else 0 := by
    intro w
    rw [hs M X w, hX]
    by_cases hw : w = m
    · subst hw
      have hNM : ¬ ((⟨N, n⟩ : Connection) == ⟨M, w⟩) = true := by
        simp [Connection.mk.injEq]
        intro h
        exact absurd h hnm
      simp [List.count_cons, hNM]
    · have h1 : ¬ ((⟨M, m⟩ : Connection) == ⟨M, w⟩) = true := by
        simp [Connection.mk.injEq]
        exact fun h => hw h.symm
      have hNM : ¬ ((⟨N, n⟩ : Connection) == ⟨M, w⟩) = true := by
        simp [Connection.mk.injEq]
        intro h
        exact absurd h hnm
      simp [List.count_cons, h1, hNM, hw]
  refine ⟨hcnt, ?_, ?_⟩
  · apply xcnt_of_counts [m]
    intro w
    rw [hcnt w]
    by_cases hw : w = m
    · subst hw
      simp
    · simp [List.count_singleton, hw, fun h => hw (Eq.symm h)]
  · apply List.count_pos_iff.mp
    rw [hcnt m]
    simp

theorem contract_exec_distinct {g : Graph} {X A a B b : Int}
    (hX : dget? g.adj X = some [⟨A, a⟩, ⟨B, b⟩])
    (hax : A ≠ X) (hbx : B ≠ X) (hab : A ≠ B)
    (hA1 : xcnt X (adjOf g A) = 1) (hA2 : (⟨X, a⟩ : Connection) ∈ adjOf g A)
    (hB1 : xcnt X (adjOf g B) = 1) (hB2 : (⟨X, b⟩ : Connection) ∈ adjOf g B) :
    contract_node_with_two_edges g X
      = add_edge
          ⟨dset (dset (ddel g.adj X) A ((adjOf g A).erase ⟨X, a⟩)) B
            ((adjOf g B).erase ⟨X, b⟩)⟩
          A B (a + b) := by
  have hAne : adjOf g A ≠ [] := List.ne_nil_of_mem hA2
  have hBne : adjOf g B ≠ [] := List.ne_nil_of_mem hB2
  have ha1A : dget? (ddel g.adj X) A = some (adjOf g A) := by
    rw [dget?_ddel_ne _ hax]
    exact dget?_eq_some_aget hAne
  have hsweepA : pySweep X (adjOf g A) = (adjOf g A).erase ⟨X, a⟩ := by
    rw [pySweep_eq_sweepSpec, sweepSpec_le_one X _ (by omega),
      dropX_eq_erase hA2 rfl hA1]
  have ha2B : dget? (dset (ddel g.adj X) A ((adjOf g A).erase ⟨X, a⟩)) B
      = some (adjOf g B) := by
    rw [dget?_dset_ne _ _ (Ne.symm hab), dget?_ddel_ne _ hbx]
    exact dget?_eq_some_aget hBne
  have hsweepB : pySweep X (adjOf g B) = (adjOf g B).erase ⟨X, b⟩ := by
    rw [pySweep_eq_sweepSpec, sweepSpec_le_one X _ (by omega),
      dropX_eq_erase hB2 rfl hB1]
  have hrbe : removeBackEdges X [⟨A, a⟩, ⟨B, b⟩] (ddel g.adj X)
      = .ok (dset (dset (ddel g.adj X) A ((adjOf g A).erase ⟨X, a⟩)) B
          ((adjOf g B).erase ⟨X, b⟩)) := by
    simp only [removeBackEdges, ha1A, hsweepA, ha2B, hsweepB]
  simp only [contract_node_with_two_edges, hX, hrbe]

/-- C6: in a graph maintaining the pairing invariant, contracting a node
X whose two stored edges go to distinct neighbours A (weight a) and B
(weight b), both different from X, removes X's adjacency entry, removes
exactly the one matching back-edge instance by value from each of A's and
B's sequences (their back-edge multiplicity is exactly 1), appends the
new undirected pair A-B with weight a+b, keeps every pre-existing A-B
edge, and leaves all other nodes untouched. -/
theorem c6_contract_two_edges_effect {g : Graph} {X A a B b : Int}
    (hs : symmCount g)
    (hX : dget? g.adj X = some [⟨A, a⟩, ⟨B, b⟩])
    (hax : A ≠ X) (hbx : B ≠ X) (hab : A ≠ B)
    (hka : 0 ≤ a) (hkb : 0 ≤ b) :
    ∃ g2, contract_node_with_two_edges g X = .ok g2 ∧
      dget? g2.adj X = none ∧
      (adjOf g A).count ⟨X, a⟩ = 1 ∧
      (adjOf g B).count ⟨X, b⟩ = 1 ∧
      adjOf g2 A = (adjOf g A).erase ⟨X, a⟩ ++ [⟨B, a + b⟩] ∧
      adjOf g2 B = (adjOf g B).erase ⟨X, b⟩ ++ [⟨A, a + b⟩] ∧
      (∀ u, u ≠ X → u ≠ A → u ≠ B → adjOf g2 u = adjOf g u) := by
  have hadjX : adjOf g X = [⟨A, a⟩, ⟨B, b⟩] := by simp [adjOf, aget, hX]
  obtain ⟨hAc, hA1, hA2⟩ := backedge_side hs hadjX hab
  obtain ⟨hBc, hB1, hB2⟩ := backedge_side_snd hs hadjX hab
  have hexec := contract_exec_distinct hX hax hbx hab hA1 hA2 hB1 hB2
  have hnn : ¬ (a + b) < 0 := by omega
  have hok : add_edge
      ⟨dset (dset (ddel g.adj X) A ((adjOf g A).erase ⟨X, a⟩)) B ((adjOf g B).erase ⟨X, b⟩)⟩
      A B (a + b)
      = .ok ⟨addHalf (addHalf
          (dset (dset (ddel g.adj X) A ((adjOf g A).erase ⟨X, a⟩)) B ((adjOf g B).erase ⟨X, b⟩))
          A ⟨B, a + b⟩) B ⟨A, a + b⟩⟩ := by
    simp only [add_edge, if_neg hnn]
  refine ⟨_, by rw [hexec, hok], ?_, ?_, ?_, ?_, ?_, ?_⟩
  · show dget? (addHalf (addHalf _ A ⟨B, a + b⟩) B ⟨A, a + b⟩) X = none
    rw [dget?_addHalf_ne _ _ (Ne.symm hbx), dget?_addHalf_ne _ _ (Ne.symm hax),
      dget?_dset_ne _ _ (Ne.symm hbx), dget?_dset_ne _ _ (Ne.symm hax),
      dget?_ddel_self]
  · rw [hAc a]
    simp
  · rw [hBc b]
    simp
  · show aget (addHalf (addHalf _ A ⟨B, a + b⟩) B ⟨A, a + b⟩) A = _
    rw [aget_addHalf_ne _ _ hab, aget_addHalf_self, aget_dset_ne _ _ hab,
      aget_dset_self]
  · show aget (addHalf (addHalf _ A ⟨B, a + b⟩) B ⟨A, a + b⟩) B = _
    rw [aget_addHalf_self, aget_addHalf_ne _ _ (Ne.symm hab), aget_dset_self]
  · intro u hux hua hub
    show aget (addHalf (addHalf _ A ⟨B, a + b⟩) B ⟨A, a + b⟩) u = _
    rw [aget_addHalf_ne _ _ hub, aget_addHalf_ne _ _ hua,
      aget_dset_ne _ _ hub, aget_dset_ne _ _ hua, aget_ddel_ne _ hux]
    rfl

/-- Witness for C6: contracting node 1 of `gPath` (edges 1-0 weight 4 and
1-2 weight 5, distinct neighbours) behaves as claimed; the pairing
hypothesis is discharged through the constructor-preserves-invariant
lemma. -/
theorem c6_witness :
    ∃ g2, contract_node_with_two_edges gPath 1 = .ok g2 ∧
      dget? g2.adj 1 = none ∧
      (adjOf gPath 0).count ⟨1, 4⟩ = 1 ∧
      (adjOf gPath 2).count ⟨1, 5⟩ = 1 ∧
      adjOf g2 0 = (adjOf gPath 0).erase ⟨1, 4⟩ ++ [⟨2, 4 + 5⟩] ∧
      adjOf g2 2 = (adjOf gPath 2).erase ⟨1, 5⟩ ++ [⟨0, 4 + 5⟩] ∧
      (∀ u, u ≠ 1 → u ≠ 0 → u ≠ 2 → adjOf g2 u = adjOf gPath u) :=
  c6_contract_two_edges_effect
    (inv_mkGraph (show mkGraph [[0, 1, 4], [1, 2, 5]] = .ok gPath from rfl)).1
    rfl (by decide) (by decide) (by decide) (by decide) (by decide)

theorem conn_beq_false {n d v w : Int} (h : ¬ n = v) :
    ¬ ((⟨n, d⟩ : Connection) == (⟨v, w⟩ : Connection)) = true := by
  simp only [beq_iff_eq, Connection.mk.injEq]
  rintro ⟨hh, -⟩
  exact h hh

theorem count_pair_zero {v w A a B b : Int} (h1 : ¬ A = v) (h2 : ¬ B = v) :
    List.count (⟨v, w⟩ : Connection) [⟨A, a⟩, ⟨B, b⟩] = 0 := by
  rw [List.count_cons, List.count_cons, List.count_nil,
    if_neg (conn_beq_false h1), if_neg (conn_beq_false h2)]

theorem erase_back_zero {l : List Connection} {X a : Int}
    (hc : ∀ w, l.count ⟨X, w⟩ = if w = a then 1 else 0) (w : Int) :
    (l.erase ⟨X, a⟩).count ⟨X, w⟩ = 0 := by
  by_cases hw : w = a
  · subst hw
    rw [List.count_erase_self, hc w]
    simp
  · rw [List.count_erase_of_ne, hc w]
    · simp [hw]
    · intro hh
      injection hh with h1 h2
      exact hw h2

theorem erase_back_keep {l : List Connection} {X a v w : Int} (h : ¬ v = X) :
    ((l.erase ⟨X, a⟩).count ⟨v, w⟩) = l.count ⟨v, w⟩ := by
  apply List.count_erase_of_ne
  intro hh
  injection hh with h1 h2
  exact h h1

theorem inv_erase2 {g : Graph} {X A a B b : Int}
    (hs : symmCount g) (he : evenLoops g) (hadjX : adjOf g X = [⟨A, a⟩, ⟨B, b⟩])
    (hax : A ≠ X) (hbx : B ≠ X) (hab : A ≠ B) :
    Inv ⟨dset (dset (ddel g.adj X) A ((adjOf g A).erase ⟨X, a⟩)) B
      ((adjOf g B).erase ⟨X, b⟩)⟩ := by
  obtain ⟨hAc, hA1, hA2⟩ := backedge_side hs hadjX hab
  obtain ⟨hBc, hB1, hB2⟩ := backedge_side_snd hs hadjX hab
  have hadj : ∀ u, adjOf ⟨dset (dset (ddel g.adj X) A ((adjOf g A).erase ⟨X, a⟩)) B
      ((adjOf g B).erase ⟨X, b⟩)⟩ u
      = if u = X then [] else if u = A then (adjOf g A).erase ⟨X, a⟩
        else if u = B then (adjOf g B).erase ⟨X, b⟩ else adjOf g u := by
    intro u
    show aget _ u = _
    by_cases hux : u = X
    · rw [if_pos hux, hux, aget_dset_ne _ _ (Ne.symm hbx), aget_dset_ne _ _ (Ne.symm hax),
        aget_ddel_self]
    · rw [if_neg hux]
      by_cases hua : u = A
      · rw [if_pos hua, hua, aget_dset_ne _ _ hab, aget_dset_self]
      · rw [if_neg hua]
        by_cases hub : u = B
        · rw [if_pos hub, hub, aget_dset_self]
        · rw [if_neg hub, aget_dset_ne _ _ hub, aget_dset_ne _ _ hua, aget_ddel_ne _ hux]
          rfl
  have h0 : ∀ v w, v ≠ A → v ≠ B → (adjOf g v).count ⟨X, w⟩ = 0 := by
    intro v w hva hvb
    by_cases hvx : v = X
    · rw [hvx, hadjX]
      exact count_pair_zero hax hbx
    · rw [hs v X w, hadjX]
      exact count_pair_zero (fun hh => hva hh.symm) (fun hh => hvb hh.symm)
  constructor
  · intro u v w
    rw [hadj u, hadj v]
    by_cases hux : u = X
    · rw [if_pos hux]
      simp only [List.count_nil]
      by_cases hvx : v = X
      · rw [if_pos hvx]
        simp
      · rw [if_neg hvx]
        by_cases hva : v = A
        · rw [if_pos hva, hux]
          exact (erase_back_zero hAc w).symm
        · rw [if_neg hva]
          by_cases hvb : v = B
          · rw [if_pos hvb, hux]
            exact (erase_back_zero hBc w).symm
          · rw [if_neg hvb, hux]
            exact (h0 v w hva hvb).symm
    · rw [if_neg hux]
      by_cases hvx : v = X
      · rw [if_pos hvx]
        simp only [List.count_nil]
        by_cases hua : u = A
        · rw [if_pos hua, hvx]
          exact erase_back_zero hAc w
        · rw [if_neg hua]
          by_cases hub : u = B
          · rw [if_pos hub, hvx]
            exact erase_back_zero hBc w
          · rw [if_neg hub, hvx]
            exact h0 u w hua hub
      · rw [if_neg hvx]
        by_cases hua : u = A
        · rw [if_pos hua]
          by_cases hva : v = A
          · rw [if_pos hva, hua, hva]
          · rw [if_neg hva]
            by_cases hvb : v = B
            · rw [if_pos hvb, hua, hvb, erase_back_keep hbx, erase_back_keep hax,
                hs A B w]
            · rw [if_neg hvb, hua, erase_back_keep hvx, hs A v w]
        · rw [if_neg hua]
          by_cases hub : u = B
          · rw [if_pos hub]
            by_cases hva : v = A
            · rw [if_pos hva, hub, hva, erase_back_keep hax, erase_back_keep hbx,
                hs B A w]
            · rw [if_neg hva]
              by_cases hvb : v = B
              · rw [if_pos hvb, hub, hvb]
              · rw [if_neg hvb, hub, erase_back_keep hvx, hs B v w]
          · rw [if_neg hub]
            by_cases hva : v = A
            · rw [if_pos hva, hva, erase_back_keep hux, hs u A w]
            · rw [if_neg hva]
              by_cases hvb : v = B
              · rw [if_pos hvb, hvb, erase_back_keep hux, hs u B w]
              · rw [if_neg hvb, hs u v w]
  · intro u w
    rw [hadj u]
    by_cases hux : u = X
    · rw [if_pos hux]
      rfl
    · rw [if_neg hux]
      by_cases hua : u = A
      · rw [if_pos hua, hua, erase_back_keep hax]
        exact he A w
      · rw [if_neg hua]
        by_cases hub : u = B
        · rw [if_pos hub, hub, erase_back_keep hbx]
          exact he B w
        · rw [if_neg hub]
          exact he u w

theorem conn_beq_same_node (N x y : Int) :
    ((⟨N, x⟩ : Connection) == ⟨N, y⟩) = (x == y) := by
  by_cases hxy : x = y <;> simp [hxy, Connection.mk.injEq]

/-- If the contracted node's first stored edge is a self-loop, the very
first back-edge lookup hits the just-deleted key and raises `KeyError`,
leaving exactly the deletion visible. -/
theorem contract_exec_headloop {g : Graph} {X d0 : Int} {c1 : Connection}
    (hX : dget? g.adj X = some [⟨X, d0⟩, c1]) :
    contract_node_with_two_edges g X = .error (.keyError, ⟨ddel g.adj X⟩) := by
  simp only [contract_node_with_two_edges, hX, removeBackEdges, dget?_ddel_self]

theorem inv_del_selfloop {g : Graph} {X d0 d1 : Int}
    (hs : symmCount g) (he : evenLoops g) (hadjX : adjOf g X = [⟨X, d0⟩, ⟨X, d1⟩]) :
    Inv ⟨ddel g.adj X⟩ := by
  have hadj : ∀ u, adjOf ⟨ddel g.adj X⟩ u = if u = X then [] else adjOf g u := by
    intro u
    show aget _ u = _
    by_cases hux : u = X
    · rw [if_pos hux, hux, aget_ddel_self]
    · rw [if_neg hux, aget_ddel_ne _ hux]
      rfl
  have h0 : ∀ v w, v ≠ X → (adjOf g v).count ⟨X, w⟩ = 0 := by
    intro v w hvx
    rw [hs v X w, hadjX]
    exact count_pair_zero (fun hh => hvx hh.symm) (fun hh => hvx hh.symm)
  constructor
  · intro u v w
    rw [hadj u, hadj v]
    by_cases hux : u = X
    · rw [if_pos hux]
      simp only [List.count_nil]
      by_cases hvx : v = X
      · rw [if_pos hvx]
        simp
      · rw [if_neg hvx, hux]
        exact (h0 v w hvx).symm
    · rw [if_neg hux]
      by_cases hvx : v = X
      · rw [if_pos hvx]
        simp only [List.count_nil]
        rw [hvx]
        exact h0 u w hux
      · rw [if_neg hvx]
        exact hs u v w
  · intro u w
    rw [hadj u]
    by_cases hux : u = X
    · rw [if_pos hux]
      rfl
    · rw [if_neg hux]
      exact he u w

/-- Contracting a node whose two edges both lead to the same distinct
neighbour A: the back-edge sweep runs twice over A's list. -/
theorem contract_exec_double {g : Graph} {X A a b : Int}
    (hX : dget? g.adj X = some [⟨A, a⟩, ⟨A, b⟩]) (hax : A ≠ X)
    (hne : adjOf g A ≠ []) :
    contract_node_with_two_edges g X
      = add_edge ⟨dset (dset (ddel g.adj X) A (pySweep X (adjOf g A)))
          A (pySweep X (pySweep X (adjOf g A)))⟩ A A (a + b) := by
  have ha1A : dget? (ddel g.adj X) A = some (adjOf g A) := by
    rw [dget?_ddel_ne _ hax]
    exact dget?_eq_some_aget hne
  have ha2A : dget? (dset (ddel g.adj X) A (pySweep X (adjOf g A))) A
      = some (pySweep X (adjOf g A)) := dget?_dset_self _ _ _
  simp only [contract_node_with_two_edges, hX, removeBackEdges, ha1A, ha2A]

theorem inv_double {g : Graph} {X A a b : Int}
    (hs : symmCount g) (he : evenLoops g) (hadjX : adjOf g X = [⟨A, a⟩, ⟨A, b⟩])
    (hax : A ≠ X) :
    Inv ⟨dset (dset (ddel g.adj X) A (pySweep X (adjOf g A)))
      A (pySweep X (pySweep X (adjOf g A)))⟩ := by
  have hAc : ∀ w, (adjOf g A).count ⟨X, w⟩ = List.count w [a, b] := by
    intro w
    rw [hs A X w, hadjX, List.count_cons, List.count_cons, List.count_nil,
      List.count_cons, List.count_cons, List.count_nil,
      conn_beq_same_node A a w, conn_beq_same_node A b w]
  have hx2 : xcnt X (adjOf g A) = 2 := by
    have h2 := xcnt_of_counts [a, b] hAc
    simpa using h2
  obtain ⟨hkeep1, hle1⟩ := sweepSpec_two X (adjOf g A) [] (xcnt_nil X) hx2
  have hps : pySweep X (pySweep X (adjOf g A))
      = dropX X (sweepSpec X [] (adjOf g A)) := by
    rw [pySweep_eq_sweepSpec X (adjOf g A), pySweep_eq_sweepSpec X _,
      sweepSpec_le_one X _ hle1]
  have hS2x : ∀ w, (pySweep X (pySweep X (adjOf g A))).count ⟨X, w⟩ = 0 := by
    intro w
    rw [hps]
    have h1 := count_le_xcnt X w (dropX X (sweepSpec X [] (adjOf g A)))
    rw [xcnt_dropX] at h1
    omega
  have hS2keep : ∀ v w, ¬ v = X →
      (pySweep X (pySweep X (adjOf g A))).count ⟨v, w⟩ = (adjOf g A).count ⟨v, w⟩ := by
    intro v w hv
    rw [hps, count_dropX _ hv]
    have h2 := hkeep1 ⟨v, w⟩ hv
    simpa using h2
  have hadj : ∀ u, adjOf ⟨dset (dset (ddel g.adj X) A (pySweep X (adjOf g A)))
      A (pySweep X (pySweep X (adjOf g A)))⟩ u
      = if u = X then [] else if u = A then pySweep X (pySweep X (adjOf g A))
        else adjOf g u := by
    intro u
    show aget _ u = _
    by_cases hux : u = X
    · rw [if_pos hux, hux, aget_dset_ne _ _ (Ne.symm hax), aget_dset_ne _ _ (Ne.symm hax),
        aget_ddel_self]
    · rw [if_neg hux]
      by_cases hua : u = A
      · rw [if_pos hua, hua, aget_dset_self]
      · rw [if_neg hua, aget_dset_ne _ _ hua, aget_dset_ne _ _ hua, aget_ddel_ne _ hux]
        rfl
  have h0 : ∀ v w, v ≠ A → (adjOf g v).count ⟨X, w⟩ = 0 := by
    intro v w hva
    by_cases hvx : v = X
    · rw [hvx, hadjX]
      exact count_pair_zero hax hax
    · rw [hs v X w, hadjX]
      exact count_pair_zero (fun hh => hva hh.symm) (fun hh => hva hh.symm)
  constructor
  · intro u v w
    rw [hadj u, hadj v]
    by_cases hux : u = X
    · rw [if_pos hux]
      simp only [List.count_nil]
      by_cases hvx : v = X
      · rw [if_pos hvx]
        simp
      · rw [if_neg hvx]
        by_cases hva : v = A
        · rw [if_pos hva, hux]
          exact (hS2x w).symm
        · rw [if_neg hva, hux]
          exact (h0 v w hva).symm
    · rw [if_neg hux]
      by_cases hvx : v = X
      · rw [if_pos hvx]
        simp only [List.count_nil]
        by_cases hua : u = A
        · rw [if_pos hua, hvx]
          exact hS2x w
        · rw [if_neg hua, hvx]
          exact h0 u w hua
      · rw [if_neg hvx]
        by_cases hua : u = A
        · rw [if_pos hua]
          by_cases hva : v = A
          · rw [if_pos hva, hua, hva]
          · rw [if_neg hva, hua, hS2keep v w hvx, hs A v w]
        · rw [if_neg hua]
          by_cases hva : v = A
          · rw [if_pos hva, hva, hS2keep u w hux, hs u A w]
          · rw [if_neg hva, hs u v w]
  · intro u w
    rw [hadj u]
    by_cases hux : u = X
    · rw [if_pos hux]
      rfl
    · rw [if_neg hux]
      by_cases hua : u = A
      · rw [if_pos hua, hua, hS2keep A w hax]
        exact he A w
      · rw [if_neg hua]
        exact he u w

theorem add_edge_error {g : Graph} {n1 n2 d : Int} {p : Err × Graph}
    (h : add_edge g n1 n2 d = .error p) : p = (.negativeDistance, g) := by
  by_cases hd : d < 0
  · simp only [add_edge, if_pos hd] at h
    injection h with h2
    rw [← h2]
  · simp [add_edge, hd] at h

/-- The main preservation theorem: whatever `contract_node_with_two_edges`
does — succeed, reject its preconditions, or crash partway with
`KeyError` — the visible state afterwards still satisfies the
invariant. -/
theorem inv_contract {g : Graph} (hinv : Inv g) (n : Int) :
    Inv (stateOf (contract_node_with_two_edges g n)) := by
  obtain ⟨hs, he⟩ := hinv
  cases hX : dget? g.adj n with
  | none =>
    simp only [contract_node_with_two_edges, hX, stateOf]
    exact ⟨hs, he⟩
  | some l =>
    have hadjX : adjOf g n = l := by simp [adjOf, aget, hX]
    rcases l with - | ⟨c0, l2⟩
    · simp only [contract_node_with_two_edges, hX, stateOf]
      exact ⟨hs, he⟩
    rcases l2 with - | ⟨c1, l3⟩
    · simp only [contract_node_with_two_edges, hX, stateOf]
      exact ⟨hs, he⟩
    rcases l3 with - | ⟨c2, l4⟩
    · -- exactly two edges
      obtain ⟨A, a⟩ := c0
      obtain ⟨B, b⟩ := c1
      by_cases hA : A = n
      · -- first edge is a self-loop; evenness forces the second to equal it
        subst hA
        have hc1 : (⟨B, b⟩ : Connection) = ⟨A, a⟩ := by
          by_cases hc : (⟨B, b⟩ : Connection) = ⟨A, a⟩
          · exact hc
          · exfalso
            have h2 := he A a
            rw [hadjX, List.count_cons, List.count_cons, List.count_nil,
              if_pos (by simp : ((⟨A, a⟩ : Connection) == ⟨A, a⟩) = true),
              if_neg (by simp only [beq_iff_eq]; exact hc)] at h2
            simp at h2
        rw [contract_exec_headloop hX]
        simp only [stateOf]
        rw [hc1] at hadjX
        exact inv_del_selfloop hs he hadjX
      · by_cases hB : B = n
        · -- second edge loops back to the contracted node: impossible
          exfalso
          subst hB
          have h2 := he B b
          rw [hadjX, List.count_cons, List.count_cons, List.count_nil,
            if_pos (by simp : ((⟨B, b⟩ : Connection) == ⟨B, b⟩) = true),
            if_neg (conn_beq_false hA)] at h2
          simp at h2
        · by_cases hAB : A = B
          · -- both edges to the same neighbour A
            subst hAB
            have hmem : (⟨n, a⟩ : Connection) ∈ adjOf g A := by
              apply List.count_pos_iff.mp
              rw [hs A n a, hadjX, List.count_cons, List.count_cons, List.count_nil,
                if_pos (by simp : ((⟨A, a⟩ : Connection) == ⟨A, a⟩) = true)]
              exact Nat.succ_pos _
            have hne : adjOf g A ≠ [] := List.ne_nil_of_mem hmem
            rw [contract_exec_double hX hA hne]
            have hinv3 := inv_double hs he hadjX hA
            cases hae : add_edge ⟨dset (dset (ddel g.adj n) A (pySweep n (adjOf g A)))
                A (pySweep n (pySweep n (adjOf g A)))⟩ A A (a + b) with
            | ok g4 =>
              simp only [stateOf]
              exact inv_add_edge hinv3 hae
            | error p =>
              have hp := add_edge_error hae
              rw [hp]
              simp only [stateOf]
              exact hinv3
          · -- two distinct neighbours, both different from the node
            obtain ⟨hAc, hA1, hA2⟩ := backedge_side hs hadjX hAB
            obtain ⟨hBc, hB1, hB2⟩ := backedge_side_snd hs hadjX hAB
            rw [contract_exec_distinct hX hA hB hAB hA1 hA2 hB1 hB2]
            have hinv3 := inv_erase2 hs he hadjX hA hB hAB
            cases hae : add_edge ⟨dset (dset (ddel g.adj n) A ((adjOf g A).erase ⟨n, a⟩))
                B ((adjOf g B).erase ⟨n, b⟩)⟩ A B (a + b) with
            | ok g4 =>
              simp only [stateOf]
              exact inv_add_edge hinv3 hae
            | error p =>
              have hp := add_edge_error hae
              rw [hp]
              simp only [stateOf]
              exact hinv3
    · -- three or more edges
      simp only [contract_node_with_two_edges, hX, stateOf]
      exact ⟨hs, he⟩

theorem reachable_inv {g : Graph} (h : Reachable g) : Inv g := by
  induction h with
  | empty => exact inv_empty
  | ctor hmk => exact inv_mkGraph hmk
  | add _ hok ih => exact inv_add_edge ih hok
  | @contractOk g0 g2 n _ hok ih =>
    have h2 := inv_contract ih n
    rw [hok] at h2
    simpa [stateOf] using h2
  | @contractErr g0 g2 n e _ hok ih =>
    have h2 := inv_contract ih n
    rw [hok] at h2
    simpa [stateOf] using h2

theorem dget?_mem : ∀ {a : Adj} {k : Int} {l : List Connection},
    dget? a k = some l → (k, l) ∈ a := by
  intro a
  induction a with
  | nil =>
    intro k l h
    exact Option.noConfusion h
  | cons p rest ih =>
    intro k l h
    obtain ⟨p1, p2⟩ := p
    by_cases hp : p1 = k
    · simp only [dget?] at h
      rw [if_pos hp] at h
      injection h with h2
      subst hp
      subst h2
      exact List.Mem.head _
    · simp only [dget?] at h
      rw [if_neg hp] at h
      exact List.Mem.tail _ (ih h)

theorem mem_get_connections {g : Graph} {u v w : Int}
    (h : (⟨v, w⟩ : Connection) ∈ adjOf g u) : [u, v, w] ∈ get_connections g := by
  rw [get_connections_eq]
  have hne : adjOf g u ≠ [] := List.ne_nil_of_mem h
  have hmem := dget?_mem (dget?_eq_some_aget hne)
  apply List.mem_flatMap.mpr
  refine ⟨(u, adjOf g u), hmem, ?_⟩
  apply List.mem_map.mpr
  exact ⟨⟨v, w⟩, h, rfl⟩

/-! ### Claim theorems: the shortest-path entry points -/

/-- C1: the claim says the default entry point `dijkstra` dispatches to
`dijkstra_version_2`, which returns the true shortest-path distance for
reachable pairs.  The dispatch half is true, but `dijkstra_version_2` is
unimplemented: its whole body is commented out and it unconditionally
raises `NotImplementedError`, so it never returns any distance at all. -/
theorem c1_accelerated_strategy_unimplemented :
    (∀ (g : Graph) (a b : Int), dijkstra g a b = dijkstra_version_2 g a b) ∧
    (∀ (g : Graph) (a b : Int) (d : EInt), dijkstra_version_2 g a b ≠ .ok d) :=
  ⟨fun _ _ _ => rfl, fun _ _ _ _ h => Except.noConfusion h⟩

/-- C2: on the spec's concrete scenario graph, the claim says the
shortest-path entry point returns 6 for the pair (2, 3).  In fact the
entry point raises `NotImplementedError`, and even the baseline
`dijkstra_version_1` returns 8 (it misses the 2-1-3 route of cost 6
because node 1 is swept before its distance becomes finite). -/
theorem c2_scenario_entry_point_fails :
    mkGraph scenarioEdges = .ok gScen ∧
    dijkstra gScen 2 3 = .error .notImplementedError ∧
    dijkstra_version_1 gScen 2 3 = .ok (some 8) :=
  ⟨rfl, rfl, rfl⟩

/-- C3: the claim says both strategies fail with `NodeNotFound` exactly
when an argument node is absent.  `dijkstra_version_1` does, but in
`dijkstra_version_2` the membership checks are commented out: on the
graph built from `[[0,1,4]]`, querying the absent node 7 raises
`NotImplementedError`, not `NodeNotFound`. -/
theorem c3_version2_never_checks_nodes :
    mkGraph [[0, 1, 4]] = .ok gSmall ∧
    dget? gSmall.adj 7 = none ∧
    dijkstra_version_2 gSmall 7 0 = .error .notImplementedError ∧
    Err.notImplementedError ≠ Err.nodeNotFound :=
  ⟨rfl, rfl, rfl, fun h => Err.noConfusion h⟩

/-- C9: the claim says `hash_code` succeeds and combines the edge's own
`to` and `weight` fields.  The source body reads the unbound bare names
`distance` and `node` instead of `self._distance` / `self._node`, so
every call raises `NameError` and no hash value is ever produced. -/
theorem c9_hash_code_raises_name_error (c : Connection) :
    Connection.hash_code c = .error .nameError :=
  rfl

/-- C10: on the sparse graph built by `add_edge(0, 5, 1)`, both query
nodes are present, yet `dijkstra_version_1` fails with an out-of-range
indexing error during its sweep (reading `D[5]` in a length-2 distance
array), rather than returning a distance or raising `NodeNotFound`. -/
theorem c10_sparse_ids_break_version1 :
    add_edge ⟨[]⟩ 0 5 1 = .ok gSparse ∧
    (dget? gSparse.adj 0).isSome = true ∧
    (dget? gSparse.adj 5).isSome = true ∧
    dijkstra_version_1 gSparse 0 5 = .error .indexError :=
  ⟨rfl, rfl, rfl, rfl⟩

/-! ### Claim theorems: add_edge -/

/-- C4: `add_edge` with a negative distance fails with `NegativeDistance`
and leaves the adjacency mapping exactly as it was (the error carries the
unchanged graph); with a non-negative distance it succeeds and both
directed halves are present afterwards. -/
theorem c4_add_edge_negative_guard (g : Graph) (n1 n2 d : Int) :
    (d < 0 → add_edge g n1 n2 d = .error (.negativeDistance, g)) ∧
    (0 ≤ d → ∃ g2, add_edge g n1 n2 d = .ok g2 ∧
      Connection.mk n2 d ∈ adjOf g2 n1 ∧ Connection.mk n1 d ∈ adjOf g2 n2) := by
  constructor
  · intro h
    simp [add_edge, h]
  · intro h
    refine ⟨⟨addHalf (addHalf g.adj n1 ⟨n2, d⟩) n2 ⟨n1, d⟩⟩, ?_, ?_, ?_⟩
    · simp [add_edge, Int.not_lt.mpr h]
    · by_cases hne : n1 = n2
      · subst hne
        simp [adjOf, aget_addHalf_self]
      · simp [adjOf, aget_addHalf_ne _ _ hne, aget_addHalf_self]
    · simp [adjOf, aget_addHalf_self]

/-- Witness for C4 at concrete inputs. -/
theorem c4_witness :
    add_edge ⟨[]⟩ 1 2 (-1) = .error (.negativeDistance, ⟨[]⟩) ∧
    (∃ g2, add_edge ⟨[]⟩ 1 2 3 = .ok g2 ∧
      Connection.mk 2 3 ∈ adjOf g2 1 ∧ Connection.mk 1 3 ∈ adjOf g2 2) :=
  ⟨(c4_add_edge_negative_guard ⟨[]⟩ 1 2 (-1)).1 (by decide),
   (c4_add_edge_negative_guard ⟨[]⟩ 1 2 3).2 (by decide)⟩

/-! ### Claim theorems: contraction preconditions -/

/-- C7: `contract_node_with_two_edges` fails with `NodeNotFound` when the
node is absent and with `InvalidDegree` when its stored edge count is not
exactly 2, and both checks precede every mutation, so the graph carried
by the error is exactly the input graph. -/
theorem c7_contract_precondition_errors (g : Graph) (n : Int) :
    (dget? g.adj n = none → contract_node_with_two_edges g n = .error (.nodeNotFound, g)) ∧
    (∀ l, dget? g.adj n = some l → l.length ≠ 2 →
      contract_node_with_two_edges g n = .error (.invalidDegree, g)) := by
  constructor
  · intro h
    simp [contract_node_with_two_edges, h]
  · intro l hl hlen
    match l, hlen with
    | [], _ => simp [contract_node_with_two_edges, hl]
    | [c], _ => simp [contract_node_with_two_edges, hl]
    | c0 :: c1 :: c2 :: rest, _ => simp [contract_node_with_two_edges, hl]
    | [c0, c1], hlen => exact absurd rfl hlen

/-- Witness for C7 at concrete inputs. -/
theorem c7_witness :
    contract_node_with_two_edges gSmall 9 = .error (.nodeNotFound, gSmall) ∧
    contract_node_with_two_edges gSmall 0 = .error (.invalidDegree, gSmall) :=
  ⟨(c7_contract_precondition_errors gSmall 9).1 rfl,
   (c7_contract_precondition_errors gSmall 0).2 [⟨1, 4⟩] rfl (by decide)⟩

/-! ### Claim theorems: get_connections enumeration -/

/-- C8 counterexample: the claim says records are enumerated ascending
over the node-id key set.  After the single call `add_edge(5, 3, 1)` the
dictionary's key insertion order is `[5, 3]`, so `get_connections`
returns the record for node 5 first: the source-node column `[5, 3]` is
not in ascending order. -/
theorem c8_ascending_order_counterexample :
    add_edge ⟨[]⟩ 5 3 1 = .ok gFiveThree ∧
    get_connections gFiveThree = [[5, 3, 1], [3, 5, 1]] ∧
    ¬ List.Chain' (· ≤ ·) ((get_connections gFiveThree).map (fun r => r.headD 0)) := by
  refine ⟨rfl, rfl, ?_⟩
  have hmap : ((get_connections gFiveThree).map (fun r => r.headD 0)) = [5, 3] := rfl
  rw [hmap]
  simp [List.chain'_cons, List.chain'_singleton]

/-- C8 amended: `get_connections` returns one record per stored directed
half-edge, enumerated by the adjacency dictionary's key insertion order
(the order in which node identifiers were first added), and within each
node by insertion order of its edge sequence; being a pure function of
the graph, the order is deterministic. -/
theorem c8_enumeration_order (g : Graph) :
    get_connections g = g.adj.flatMap (fun p => p.2.map (fun e => [p.1, e.node, e.distance])) ∧
    (get_connections g).length = (g.adj.map (fun p => p.2.length)).sum := by
  refine ⟨get_connections_eq g, ?_⟩
  rw [get_connections_eq g]
  have hcomp : (List.length ∘ fun p : Int × List Connection =>
      p.2.map (fun e => [p.1, e.node, e.distance])) = fun p => p.2.length := by
    funext p
    simp
  simp [List.flatMap, List.map_map, hcomp]

/-! ### Claim theorem: the undirected-pairing invariant -/

/-- C5: every graph reachable through the public operations (empty or
edge-list construction, `add_edge`, `contract_node_with_two_edges` —
successful or not) satisfies the undirected-pairing invariant: each
stored half-edge `(u, {to: v, weight: w})` has a matching
`(v, {to: u, weight: w})`; and after any successful `add_edge(u, v, w)`
both directed records appear independently in `get_connections()`. -/
theorem c5_pairing_invariant :
    (∀ g : Graph, Reachable g → Pairing g) ∧
    (∀ (g g2 : Graph) (u v w : Int), Reachable g → add_edge g u v w = .ok g2 →
      [u, v, w] ∈ get_connections g2 ∧ [v, u, w] ∈ get_connections g2) := by
  constructor
  · intro g hre
    exact pairing_of_symmCount (reachable_inv hre).1
  · intro g g2 u v w _ hok
    constructor
    · apply mem_get_connections
      rw [adjOf_add_edge hok u]
      have hm : (⟨v, w⟩ : Connection) ∈ (if u = u then [(⟨v, w⟩ : Connection)] else []) := by
        rw [if_pos rfl]
        exact List.Mem.head _
      exact List.mem_append_right _ (List.mem_append_left _ hm)
    · apply mem_get_connections
      rw [adjOf_add_edge hok v]
      have hm : (⟨u, w⟩ : Connection) ∈ (if v = v then [(⟨u, w⟩ : Connection)] else []) := by
        rw [if_pos rfl]
        exact List.Mem.head _
      exact List.mem_append_right _ (List.mem_append_right _ hm)

/-- Witness for C5: the empty graph is reachable and paired, and one
concrete successful `add_edge(1, 2, 3)` from it puts both directed
records into `get_connections`. -/
theorem c5_witness :
    Pairing (⟨[]⟩ : Graph) ∧
    ([1, 2, 3] ∈ get_connections ⟨[(1, [⟨2, 3⟩]), (2, [⟨1, 3⟩])]⟩ ∧
     [2, 1, 3] ∈ get_connections ⟨[(1, [⟨2, 3⟩]), (2, [⟨1, 3⟩])]⟩) :=
  ⟨c5_pairing_invariant.1 ⟨[]⟩ Reachable.empty,
   c5_pairing_invariant.2 ⟨[]⟩ ⟨[(1, [⟨2, 3⟩]), (2, [⟨1, 3⟩])]⟩ 1 2 3 Reachable.empty rfl⟩

end DG
